import Mathlib

/-!
Verification of `src/analysis/hessian_estimator_full-eigen.cc`.

The program estimates a Hessian by the covariance of per-example parameter
gradients, eigendecomposes the covariance, sorts the eigenpairs in descending
order of eigenvalue (a selection sort that swaps eigenvector columns in step
with eigenvalue entries), and writes the results to two text files.

Machine `real` values are modelled as rationals (exact arithmetic), matrices
as functions out of `Fin`, and the C loops as structurally recursive
functions over an explicit fuel that matches the loop bounds.
-/

namespace HessianEstimator

/-! ### Eigen-pair selection sort (lines 185-202)

The C code runs, for `i` from 0 to `n_params - 1`: an inner scan over
`j = i+1 .. n_params-1` keeping a running `max_index`/`max_value`, then

    d->ptr[max_index] = d->ptr[i];
    d->ptr[i] = max_value;
    mxSwapColsMat(V, i, max_index, -1, -1);

`innerMax` is the inner scan (fuel counts the remaining iterations; the
actual call passes fuel `n`, which always suffices since `j` starts at
`i+1`).  `swapD` is the pair of writes into `d`; `swapColsV` is the
full-range column swap `mxSwapColsMat(V, i, max_index, -1, -1)`. -/

def innerMax (n : Nat) (d : Fin n → ℚ) : Nat → Nat → Fin n → ℚ → Fin n × ℚ
  | 0, _, mi, mv => (mi, mv)
  | fuel+1, j, mi, mv =>
    if h : j < n then
      if mv < d ⟨j, h⟩ then innerMax n d fuel (j+1) ⟨j, h⟩ (d ⟨j, h⟩)
      else innerMax n d fuel (j+1) mi mv
    else (mi, mv)

def selectMax (n : Nat) (d : Fin n → ℚ) (i : Fin n) : Fin n × ℚ :=
  innerMax n d n (i.val + 1) i (d i)

def swapD {n : Nat} (d : Fin n → ℚ) (i m : Fin n) (mv : ℚ) : Fin n → ℚ :=
  Function.update (Function.update d m (d i)) i mv

def swapColsV {n : Nat} (V : Fin n → Fin n → ℚ) (i m : Fin n) :
    Fin n → Fin n → ℚ :=
  fun r c => if c = i then V r m else if c = m then V r i else V r c

def sortLoop (n : Nat) :
    Nat → Nat → (Fin n → ℚ) → (Fin n → Fin n → ℚ) →
      (Fin n → ℚ) × (Fin n → Fin n → ℚ)
  | 0, _, d, V => (d, V)
  | fuel+1, i, d, V =>
    if h : i < n then
      sortLoop n fuel (i+1)
        (swapD d ⟨i, h⟩ (selectMax n d ⟨i, h⟩).1 (selectMax n d ⟨i, h⟩).2)
        (swapColsV V ⟨i, h⟩ (selectMax n d ⟨i, h⟩).1)
    else (d, V)

/-- The whole sort step: the outer loop `for (i = 0; i < n_params; i++)`. -/
def eigSort (n : Nat) (d : Fin n → ℚ) (V : Fin n → Fin n → ℚ) :
    (Fin n → ℚ) × (Fin n → Fin n → ℚ) :=
  sortLoop n n 0 d V

/-! #### Inner-scan invariants -/

/-- The running maximum value always equals `d` at the running index. -/
theorem innerMax_snd_eq (n : Nat) (d : Fin n → ℚ) :
    ∀ (fuel j : Nat) (mi : Fin n) (mv : ℚ), mv = d mi →
      (innerMax n d fuel j mi mv).2 = d (innerMax n d fuel j mi mv).1 := by
  intro fuel
  induction fuel with
  | zero => intro j mi mv h; simpa [innerMax] using h
  | succ fuel ih =>
    intro j mi mv h
    by_cases hj : j < n
    · by_cases hlt : mv < d ⟨j, hj⟩
      · simp only [innerMax, dif_pos hj, if_pos hlt]
        exact ih (j+1) ⟨j, hj⟩ (d ⟨j, hj⟩) rfl
      · simp only [innerMax, dif_pos hj, if_neg hlt]
        exact ih (j+1) mi mv h
    · simpa [innerMax, dif_neg hj] using h

/-- Any property preserved by the initial index and all scanned indices holds
of the returned index. -/
theorem innerMax_fst_prop (n : Nat) (d : Fin n → ℚ) (P : Fin n → Prop) :
    ∀ (fuel j : Nat) (mi : Fin n) (mv : ℚ), P mi →
      (∀ k : Fin n, j ≤ k.val → P k) →
      P (innerMax n d fuel j mi mv).1 := by
  intro fuel
  induction fuel with
  | zero => intro j mi mv hmi _; simpa [innerMax] using hmi
  | succ fuel ih =>
    intro j mi mv hmi hall
    by_cases hj : j < n
    · by_cases hlt : mv < d ⟨j, hj⟩
      · simp only [innerMax, dif_pos hj, if_pos hlt]
        exact ih (j+1) ⟨j, hj⟩ (d ⟨j, hj⟩) (hall ⟨j, hj⟩ le_rfl)
          (fun k hk => hall k (Nat.le_of_succ_le hk))
      · simp only [innerMax, dif_pos hj, if_neg hlt]
        exact ih (j+1) mi mv hmi (fun k hk => hall k (Nat.le_of_succ_le hk))
    · simpa [innerMax, dif_neg hj] using hmi

/-- With enough fuel, the returned value dominates the initial value and
every entry of `d` at an index `≥ j`. -/
theorem innerMax_max (n : Nat) (d : Fin n → ℚ) :
    ∀ (fuel j : Nat) (mi : Fin n) (mv : ℚ), n ≤ fuel + j →
      mv ≤ (innerMax n d fuel j mi mv).2 ∧
      (∀ k : Fin n, j ≤ k.val → d k ≤ (innerMax n d fuel j mi mv).2) := by
  intro fuel
  induction fuel with
  | zero =>
    intro j mi mv hfuel
    refine ⟨by simp [innerMax], fun k hk => absurd (lt_of_lt_of_le k.isLt hfuel)
      (by omega)⟩
  | succ fuel ih =>
    intro j mi mv hfuel
    by_cases hj : j < n
    · have hfuel' : n ≤ fuel + (j+1) := by omega
      by_cases hlt : mv < d ⟨j, hj⟩
      · simp only [innerMax, dif_pos hj, if_pos hlt]
        obtain ⟨h1, h2⟩ := ih (j+1) ⟨j, hj⟩ (d ⟨j, hj⟩) hfuel'
        refine ⟨le_trans (le_of_lt hlt) h1, fun k hk => ?_⟩
        rcases Nat.eq_or_lt_of_le hk with heq | hgt
        · have : k = ⟨j, hj⟩ := Fin.ext heq.symm
          exact this ▸ h1
        · exact h2 k hgt
      · simp only [innerMax, dif_pos hj, if_neg hlt]
        obtain ⟨h1, h2⟩ := ih (j+1) mi mv hfuel'
        refine ⟨h1, fun k hk => ?_⟩
        rcases Nat.eq_or_lt_of_le hk with heq | hgt
        · have hk' : k = ⟨j, hj⟩ := Fin.ext heq.symm
          exact hk' ▸ le_trans (le_of_not_lt hlt) h1
        · exact h2 k hgt
    · simp only [innerMax, dif_neg hj]
      exact ⟨le_rfl, fun k hk =>
        absurd (lt_of_lt_of_le k.isLt (le_of_not_lt hj)) (by omega)⟩

/-! #### The two writes into `d` and the column swap are one transposition -/

/-- Writing `d[i]` into slot `m` and the cached maximum `d m` into slot `i`
is exactly precomposition with the transposition of `i` and `m`. -/
theorem swapD_eq {n : Nat} (d : Fin n → ℚ) (i m : Fin n) :
    swapD d i m (d m) = fun k => d (Equiv.swap i m k) := by
  funext k
  simp only [swapD, Function.update_apply, Equiv.swap_apply_def]
  split_ifs <;> rfl

/-- The full-range column swap is precomposition of the column index with the
same transposition. -/
theorem swapColsV_eq {n : Nat} (V : Fin n → Fin n → ℚ) (i m : Fin n) :
    swapColsV V i m = fun r c => V r (Equiv.swap i m c) := by
  funext r c
  simp only [swapColsV, Equiv.swap_apply_def]
  split_ifs <;> rfl

/-- The value returned by `selectMax` is `d` at the returned index. -/
theorem selectMax_snd_eq (n : Nat) (d : Fin n → ℚ) (i : Fin n) :
    (selectMax n d i).2 = d (selectMax n d i).1 :=
  innerMax_snd_eq n d n (i.val + 1) i (d i) rfl

/-- The index returned by `selectMax` is at least `i`. -/
theorem selectMax_fst_ge (n : Nat) (d : Fin n → ℚ) (i : Fin n) :
    i.val ≤ (selectMax n d i).1.val :=
  innerMax_fst_prop n d (fun k => i.val ≤ k.val) n (i.val + 1) i (d i) le_rfl
    (fun k hk => by omega)

/-- The value returned by `selectMax` dominates every entry from `i` on. -/
theorem selectMax_max (n : Nat) (d : Fin n → ℚ) (i : Fin n) :
    ∀ k : Fin n, i.val ≤ k.val → d k ≤ (selectMax n d i).2 := by
  intro k hk
  obtain ⟨h1, h2⟩ := innerMax_max n d n (i.val + 1) i (d i) (by omega)
  rcases Nat.eq_or_lt_of_le hk with heq | hgt
  · have : k = i := Fin.ext heq.symm
    exact this ▸ h1
  · exact h2 k hgt

/-! #### Claim C1: one permutation moves eigenvalues and eigenvector columns -/

theorem sortLoop_perm (n : Nat) :
    ∀ (fuel i : Nat) (d : Fin n → ℚ) (V : Fin n → Fin n → ℚ),
      ∃ p : Equiv.Perm (Fin n),
        (∀ k, (sortLoop n fuel i d V).1 k = d (p k)) ∧
        (∀ r c, (sortLoop n fuel i d V).2 r c = V r (p c)) := by
  intro fuel
  induction fuel with
  | zero =>
    intro i d V
    exact ⟨Equiv.refl _, fun k => rfl, fun r c => rfl⟩
  | succ fuel ih =>
    intro i d V
    by_cases h : i < n
    · simp only [sortLoop, dif_pos h]
      obtain ⟨p, hp1, hp2⟩ := ih (i+1)
        (swapD d ⟨i, h⟩ (selectMax n d ⟨i, h⟩).1 (selectMax n d ⟨i, h⟩).2)
        (swapColsV V ⟨i, h⟩ (selectMax n d ⟨i, h⟩).1)
      refine ⟨p.trans (Equiv.swap ⟨i, h⟩ (selectMax n d ⟨i, h⟩).1), ?_, ?_⟩
      · intro k
        rw [hp1 k, selectMax_snd_eq, swapD_eq]
        rfl
      · intro r c
        rw [hp2 r c, swapColsV_eq]
        rfl
    · simp only [sortLoop, dif_neg h]
      exact ⟨Equiv.refl _, fun k => rfl, fun r c => rfl⟩

/-! #### Claim C2: descending order -/

theorem sortLoop_nonincreasing (n : Nat) :
    ∀ (fuel i : Nat) (d : Fin n → ℚ) (V : Fin n → Fin n → ℚ),
      n ≤ fuel + i →
      (∀ a b : Fin n, a.val ≤ b.val → b.val < i → d b ≤ d a) →
      (∀ a j : Fin n, a.val < i → i ≤ j.val → d j ≤ d a) →
      ∀ a b : Fin n, a.val ≤ b.val →
        (sortLoop n fuel i d V).1 b ≤ (sortLoop n fuel i d V).1 a := by
  intro fuel
  induction fuel with
  | zero =>
    intro i d V hfuel hsorted _ a b hab
    exact hsorted a b hab (lt_of_lt_of_le b.isLt (by omega))
  | succ fuel ih =>
    intro i d V hfuel hsorted hdom a b hab
    by_cases h : i < n
    · simp only [sortLoop, dif_pos h]
      set i' : Fin n := ⟨i, h⟩ with hi'
      set m : Fin n := (selectMax n d i').1 with hm
      have hiv : i'.val = i := rfl
      have hm_ge : i ≤ m.val := selectMax_fst_ge n d i'
      have hmv : (selectMax n d i').2 = d m := selectMax_snd_eq n d i'
      have hmax : ∀ k : Fin n, i ≤ k.val → d k ≤ d m := by
        intro k hk
        have := selectMax_max n d i' k hk
        rwa [hmv] at this
      have hd' : swapD d i' m (selectMax n d i').2
          = fun k => d (Equiv.swap i' m k) := by
        rw [hmv, swapD_eq]
      rw [hd']
      -- which indices the transposition fixes
      have hfix : ∀ k : Fin n, k.val < i → Equiv.swap i' m k = k := by
        intro k hk
        apply Equiv.swap_apply_of_ne_of_ne
        · intro hki
          have hkv : k.val = i := by rw [hki]
          omega
        · intro hkm
          have hkv : k.val = m.val := by rw [hkm]
          omega
      have hhigh : ∀ j : Fin n, i ≤ j.val → i ≤ (Equiv.swap i' m j).val := by
        intro j hj
        by_cases hji : j = i'
        · rw [hji, Equiv.swap_apply_left]
          exact hm_ge
        · by_cases hjm : j = m
          · rw [hjm, Equiv.swap_apply_right]
          · rw [Equiv.swap_apply_of_ne_of_ne hji hjm]
            exact hj
      apply ih (i+1) _ _ (by omega)
      · -- sorted up to i+1
        intro a b hab hb
        by_cases hbi : b.val < i
        · rw [hfix b hbi, hfix a (lt_of_le_of_lt hab hbi)]
          exact hsorted a b hab hbi
        · have hb_eq : b = i' := Fin.ext (by omega)
          rw [hb_eq, Equiv.swap_apply_left]
          rcases Nat.lt_or_ge a.val i with ha | ha
          · rw [hfix a ha]
            exact hdom a m ha hm_ge
          · have hbv : b.val = i := by rw [hb_eq]
            have ha_eq : a = i' := Fin.ext (by omega)
            rw [ha_eq, Equiv.swap_apply_left]
      · -- the prefix dominates the rest
        intro a j ha hj
        have hj_high : i ≤ (Equiv.swap i' m j).val := hhigh j (by omega)
        rcases Nat.lt_or_ge a.val i with ha' | ha'
        · rw [hfix a ha']
          exact hdom a (Equiv.swap i' m j) ha' hj_high
        · have ha_eq : a = i' := Fin.ext (by omega)
          rw [ha_eq, Equiv.swap_apply_left]
          exact hmax (Equiv.swap i' m j) hj_high
      · exact hab
    · simp only [sortLoop, dif_neg h]
      exact hsorted a b hab (lt_of_lt_of_le b.isLt (by omega))

/-! ### Mean gradient norm, mean, centering, covariance (lines 135-169) -/

/-- Modelled from the spec: `Vec::norm2` belongs to the external dense-vector
library (not in this repository); the contract of the spec for this pass is the
"mean squared L2 norm of gradient rows", so `norm2` is the squared Euclidean
norm of the vector. -/
def vecNorm2 (P : Nat) (v : Fin P → ℚ) : ℚ := ∑ j, v j * v j

/-- Lines 136-142: `mean_norm2` accumulates `gradient.norm2()` over every row
of the gradient matrix, then divides by `data.n_examples`. -/
def meanNorm2 (N P : Nat) (G : Fin N → Fin P → ℚ) : ℚ :=
  (∑ i, vecNorm2 P (G i)) / (N : ℚ)

/-- Lines 147-158: `gradient_mean` starts at zero, accumulates the column sums
over all examples, then scales by `inv_n_examples = 1.0 / data.n_examples`. -/
def gradientMean (N P : Nat) (G : Fin N → Fin P → ℚ) : Fin P → ℚ :=
  fun j => (∑ i, G i j) * (1 / (N : ℚ))

/-- Lines 162-164: in-place centering `gradients->ptr[i][j] -= gradient_mean->ptr[j]`. -/
def centerGradients (N P : Nat) (G : Fin N → Fin P → ℚ) : Fin N → Fin P → ℚ :=
  fun i j => G i j - gradientMean N P G j

/-- Modelled from the spec: `mxTrMatMulMat` is a primitive of the external
dense-matrix library ("dense matrix type with transpose-multiply ... operations");
`mxTrMatMulMat(A, B, C)` stores Aᵀ·B into C. -/
def mxTrMatMulMat (N P : Nat) (A B : Fin N → Fin P → ℚ) : Fin P → Fin P → ℚ :=
  fun i j => ∑ k, A k i * B k j

/-- Modelled from the spec: `mxRealMulMat` is the external scalar-multiply
primitive; `mxRealMulMat(c, M, R)` stores `c·M` into R. -/
def mxRealMulMat (P : Nat) (c : ℚ) (M : Fin P → Fin P → ℚ) : Fin P → Fin P → ℚ :=
  fun i j => c * M i j

/-- Lines 166-169: `mxTrMatMulMat(gradients, gradients, covariance)` followed by
`mxRealMulMat(1.0/(data.n_examples-1.0), covariance, covariance)`. -/
def covariance (N P : Nat) (G : Fin N → Fin P → ℚ) : Fin P → Fin P → ℚ :=
  mxRealMulMat P (1 / ((N : ℚ) - 1)) (mxTrMatMulMat N P G G)

/-- Line 142: the divisor of `mean_norm2 /= data.n_examples`. -/
def meanNorm2Divisor (N : Nat) : ℚ := (N : ℚ)

/-- Line 156: the divisor of `inv_n_examples = 1.0 / data.n_examples`. -/
def invExamplesDivisor (N : Nat) : ℚ := (N : ℚ)

/-- Line 169: the divisor of `1.0 / (data.n_examples - 1.0)`. -/
def covScaleDivisor (N : Nat) : ℚ := (N : ℚ) - 1

/-! ### Claim theorems C1, C2, C3, C4, C9, C10 -/

/-- Claim C1: the sort step applies one and the same permutation to the
eigenvalue vector and to the columns of the eigenvector matrix: there is a
permutation `p` with sorted `d` at `i` equal to original `d (p i)` and sorted
column `i` of `V` equal to original column `p i` of `V`; no eigenpair is lost,
duplicated, or re-paired. -/
theorem sort_single_permutation (n : Nat) (d : Fin n → ℚ)
    (V : Fin n → Fin n → ℚ) :
    ∃ p : Equiv.Perm (Fin n),
      (∀ i : Fin n, (eigSort n d V).1 i = d (p i)) ∧
      (∀ r i : Fin n, (eigSort n d V).2 r i = V r (p i)) :=
  sortLoop_perm n n 0 d V

/-- Claim C2: after the selection-sort step the eigenvalue vector is in
non-increasing order: `d[i] ≥ d[i+1]` for every valid `i`. -/
theorem sort_descending (n : Nat) (d : Fin n → ℚ) (V : Fin n → Fin n → ℚ)
    (i : Nat) (h1 : i < n) (h2 : i + 1 < n) :
    (eigSort n d V).1 ⟨i+1, h2⟩ ≤ (eigSort n d V).1 ⟨i, h1⟩ :=
  sortLoop_nonincreasing n n 0 d V (by omega)
    (fun _ _ _ hb => absurd hb (by omega))
    (fun _ _ ha _ => absurd ha (by omega))
    ⟨i, h1⟩ ⟨i+1, h2⟩ (Nat.le_succ i)

/-- Witness for `sort_descending` at the concrete input `d = (1, 3, 2)`. -/
theorem sort_descending_witness :
    (0 < 3 ∧ 0 + 1 < 3) ∧
      (eigSort 3 ![1, 3, 2] (fun _ _ => 0)).1 ⟨0 + 1, by decide⟩ ≤
        (eigSort 3 ![1, 3, 2] (fun _ _ => 0)).1 ⟨0, by decide⟩ :=
  ⟨⟨by decide, by decide⟩,
    sort_descending 3 ![1, 3, 2] (fun _ _ => 0) 0 (by decide) (by decide)⟩

/-- Claim C3: for a centered gradient matrix with `N ≥ 2` rows the computed
covariance equals `Gᵀ·G` scaled by `1/(N-1)`, and it is symmetric. -/
theorem covariance_gram_symmetric (N P : Nat) (G : Fin N → Fin P → ℚ)
    (hN : 2 ≤ N) (i j : Fin P) :
    covariance N P G i j
        = (Matrix.transpose (Matrix.of G) * Matrix.of G) i j / ((N : ℚ) - 1) ∧
      covariance N P G i j = covariance N P G j i := by
  constructor
  · simp only [covariance, mxRealMulMat, mxTrMatMulMat, Matrix.mul_apply,
      Matrix.transpose_apply, Matrix.of_apply]
    rw [one_div_mul_eq_div]
  · simp only [covariance, mxRealMulMat, mxTrMatMulMat]
    congr 1
    exact Finset.sum_congr rfl (fun k _ => mul_comm _ _)

/-- Witness for `covariance_gram_symmetric` at the all-ones 2×1 matrix. -/
theorem covariance_gram_symmetric_witness :
    2 ≤ 2 ∧
      (covariance 2 1 (fun _ _ => 1) 0 0
          = (Matrix.transpose (Matrix.of (fun _ _ => (1 : ℚ)) : Matrix (Fin 2) (Fin 1) ℚ)
              * (Matrix.of (fun _ _ => (1 : ℚ)) : Matrix (Fin 2) (Fin 1) ℚ)) 0 0
              / ((2 : ℚ) - 1) ∧
        covariance 2 1 (fun _ _ => 1) 0 0 = covariance 2 1 (fun _ _ => 1) 0 0) :=
  ⟨by decide, covariance_gram_symmetric 2 1 (fun _ _ => 1) (by decide) 0 0⟩

/-- Claim C4: the mean pass computes the plain arithmetic column mean
`(1/N)·∑ᵢ G[i][j]` and subtracts it from every entry of the column; in exact
arithmetic the column-wise sum, hence the column-wise mean, of the centered
matrix is zero, for every `N ≥ 1`. -/
theorem centering_zero_mean (N P : Nat) (G : Fin N → Fin P → ℚ)
    (hN : 1 ≤ N) (j : Fin P) :
    gradientMean N P G j = (1 / (N : ℚ)) * ∑ i, G i j ∧
      (∑ i, centerGradients N P G i j) = 0 ∧
      gradientMean N P (centerGradients N P G) j = 0 := by
  have hNQ : (N : ℚ) ≠ 0 := Nat.cast_ne_zero.mpr (by omega)
  have hsum : (∑ i, centerGradients N P G i j) = 0 := by
    simp only [centerGradients, gradientMean]
    rw [Finset.sum_sub_distrib, Finset.sum_const, Finset.card_univ,
      Fintype.card_fin, nsmul_eq_mul]
    field_simp
  refine ⟨mul_comm _ _, hsum, ?_⟩
  simp only [gradientMean] at hsum ⊢
  simp only [centerGradients, gradientMean] at hsum
  simp only [centerGradients, gradientMean]
  rw [hsum, zero_mul]

/-- Witness for `centering_zero_mean` at the 1×1 matrix with entry 5. -/
theorem centering_zero_mean_witness :
    1 ≤ 1 ∧
      (gradientMean 1 1 (fun _ _ => 5) 0 = (1 / (1 : ℚ)) * ∑ _i : Fin 1, (5 : ℚ) ∧
        (∑ i : Fin 1, centerGradients 1 1 (fun _ _ => 5) i 0) = 0 ∧
        gradientMean 1 1 (centerGradients 1 1 (fun _ _ => 5)) 0 = 0) :=
  ⟨by decide, centering_zero_mean 1 1 (fun _ _ => 5) (by decide) 0⟩

/-- Claim C9: the printed `mean_norm2` diagnostic is the mean squared L2 norm
of the gradient rows: `(1/N)·∑ᵢ ∑ⱼ G[i][j]²`, for every `N ≥ 1`. -/
theorem meanNorm2_mean_squared_rows (N P : Nat) (G : Fin N → Fin P → ℚ)
    (hN : 1 ≤ N) :
    meanNorm2 N P G = (1 / (N : ℚ)) * ∑ i, ∑ j, (G i j) ^ 2 := by
  simp only [meanNorm2, vecNorm2, pow_two]
  rw [one_div_mul_eq_div]

/-- Witness for `meanNorm2_mean_squared_rows` at the 1×1 matrix with entry 3. -/
theorem meanNorm2_mean_squared_rows_witness :
    1 ≤ 1 ∧
      meanNorm2 1 1 (fun _ _ => 3)
        = (1 / (1 : ℚ)) * ∑ _i : Fin 1, ∑ _j : Fin 1, (3 : ℚ) ^ 2 :=
  ⟨by decide, meanNorm2_mean_squared_rows 1 1 (fun _ _ => 3) (by decide)⟩

/-- Claim C10: the three divisions of the pipeline (`mean_norm2 /= N`,
`inv_n_examples = 1/N`, covariance scale `1/(N-1)`) are unguarded; all three
divisors are nonzero exactly when the dataset has at least two examples, and
for a single-example dataset the covariance scaling divides by zero. -/
theorem pipeline_divisors_nonzero_iff :
    (∀ N : Nat,
        (meanNorm2Divisor N ≠ 0 ∧ invExamplesDivisor N ≠ 0 ∧
          covScaleDivisor N ≠ 0) ↔ 2 ≤ N) ∧
      covScaleDivisor 1 = 0 := by
  constructor
  · intro N
    simp only [meanNorm2Divisor, invExamplesDivisor, covScaleDivisor, ne_eq,
      Nat.cast_eq_zero, sub_eq_zero, Nat.cast_eq_one]
    omega
  · simp [covScaleDivisor]

/-! ### Gradient collection (lines 88-133)

`der_params` is a partitioned gradient buffer: `n_data` groups, group `j`
holding `size[j]` reals.  It is modelled as a `List (List ℚ)`; a buffer has
the shape of the model when the list of group lengths equals `sizes`.

`n_params` is accumulated by the loop at lines 90-92.  Each loop iteration
(lines 109-133) runs the external forward/backward pass, which adds the
per-group gradient contribution of the example into `der_params`, then the loop at
lines 121-125 walks the groups with a running destination pointer, for each
group copying it into row `i` of the gradient matrix (`memcpy`) and zeroing
it in place (`memset`) before advancing the pointer. -/

/-- Lines 90-92: `n_params += der_params->size[i]` starting from 0. -/
def nParams (sizes : List Nat) : Nat := sizes.foldl (· + ·) 0

/-- A `der_params`-shaped buffer: group lengths equal to `sizes`. -/
def shaped (sizes : List Nat) (c : List (List ℚ)) : Prop :=
  c.map List.length = sizes

/-- An all-zero `der_params` buffer; lines 104-105 (`memset` before the loop)
produce this state. -/
def zeroDer (sizes : List Nat) : List (List ℚ) :=
  sizes.map (fun s => List.replicate s 0)

/-- Modelled from the spec: `csae->backward` of the external library adds the
per-group gradient contribution of the current example into `der_params`
("gradients are additive"). -/
def accumulate (der contrib : List (List ℚ)) : List (List ℚ) :=
  List.zipWith (List.zipWith (· + ·)) der contrib

/-- `memcpy(ptr, src, ...)`: write the elements of `src` into `dst` starting
at offset `ofs`, one element at a time. -/
def memcpyL : List ℚ → Nat → List ℚ → List ℚ
  | dst, _, [] => dst
  | dst, ofs, x :: xs => memcpyL (dst.set ofs x) (ofs + 1) xs

/-- Lines 121-125 as one pass: for each group, `memcpy` it into the row at the
running offset and replace the group by zeros (`memset`), advancing the offset
by the group size.  Returns the written row and the new `der_params`. -/
def copyAndClear : List ℚ → Nat → List (List ℚ) → List ℚ × List (List ℚ)
  | dst, _, [] => (dst, [])
  | dst, ofs, g :: gs =>
    ((copyAndClear (memcpyL dst ofs g) (ofs + g.length) gs).1,
      List.replicate g.length 0 :: (copyAndClear (memcpyL dst ofs g) (ofs + g.length) gs).2)

/-- The row-contents part of `copyAndClear` alone (the successive `memcpy`s). -/
def copyGroups : List ℚ → Nat → List (List ℚ) → List ℚ
  | dst, _, [] => dst
  | dst, ofs, g :: gs => copyGroups (memcpyL dst ofs g) (ofs + g.length) gs

/-- The state carried across loop iterations: the `der_params` buffer and the
rows of the gradient matrix written so far. -/
structure GradState where
  der : List (List ℚ)
  rows : List (List ℚ)

/-- One iteration of the loop at lines 109-133 for one example whose
forward/backward pass contributes `contrib`: accumulate into `der_params`,
then copy the groups into a fresh row and clear them. -/
def processExample (P : Nat) (s : GradState) (contrib : List (List ℚ)) :
    GradState :=
  { der := (copyAndClear (List.replicate P 0) 0 (accumulate s.der contrib)).2,
    rows := s.rows ++ [(copyAndClear (List.replicate P 0) 0 (accumulate s.der contrib)).1] }

/-- The loop over all examples (lines 109-133). -/
def runExamples (P : Nat) (s : GradState) (contribs : List (List (List ℚ))) :
    GradState :=
  contribs.foldl (processExample P) s

/-- The whole gradient-collection phase: clear `der_params` (lines 104-105),
then loop over the dataset, writing one row of the `n_examples × n_params`
matrix per example. -/
def collectGradients (sizes : List Nat) (contribs : List (List (List ℚ))) :
    GradState :=
  runExamples (nParams sizes) { der := zeroDer sizes, rows := [] } contribs

/-! #### Basic list lemmas for the copy loops -/

theorem nParams_eq_sum (sizes : List Nat) : nParams sizes = sizes.sum := by
  have h : ∀ (l : List Nat) (a : Nat), l.foldl (· + ·) a = a + l.sum := by
    intro l
    induction l with
    | nil => intro a; simp
    | cons x xs ih => intro a; simp [List.foldl_cons, ih, Nat.add_assoc]
  simpa [nParams] using h sizes 0

theorem memcpyL_length : ∀ (src dst : List ℚ) (ofs : Nat),
    (memcpyL dst ofs src).length = dst.length := by
  intro src
  induction src with
  | nil => intro dst ofs; rfl
  | cons x xs ih => intro dst ofs; simp [memcpyL, ih, List.length_set]

theorem take_set_succ : ∀ (l : List ℚ) (o : Nat) (x : ℚ), o < l.length →
    (l.set o x).take (o + 1) = l.take o ++ [x] := by
  intro l
  induction l with
  | nil => intro o x h; simp at h
  | cons a l ih =>
    intro o x h
    cases o with
    | zero => simp
    | succ o =>
      simp only [List.set_cons_succ, List.take_succ_cons, List.cons_append]
      rw [ih o x (by simpa using h)]

theorem drop_set_of_lt : ∀ (l : List ℚ) (o k : Nat) (x : ℚ), o < k →
    (l.set o x).drop k = l.drop k := by
  intro l
  induction l with
  | nil => intro o k x h; simp
  | cons a l ih =>
    intro o k x h
    cases o with
    | zero =>
      cases k with
      | zero => omega
      | succ k => simp
    | succ o =>
      cases k with
      | zero => omega
      | succ k =>
        simp only [List.set_cons_succ, List.drop_succ_cons]
        exact ih o k x (by omega)

/-- `memcpy` writes `src` verbatim at offset `ofs`, leaving both sides. -/
theorem memcpyL_spec : ∀ (src dst : List ℚ) (ofs : Nat),
    ofs + src.length ≤ dst.length →
    memcpyL dst ofs src = dst.take ofs ++ src ++ dst.drop (ofs + src.length) := by
  intro src
  induction src with
  | nil =>
    intro dst ofs h
    simp [memcpyL, List.take_append_drop]
  | cons x xs ih =>
    intro dst ofs h
    simp only [List.length_cons] at h
    have hofs : ofs < dst.length := by omega
    simp only [memcpyL]
    rw [ih (dst.set ofs x) (ofs + 1) (by rw [List.length_set]; omega)]
    rw [take_set_succ dst ofs x hofs, drop_set_of_lt dst ofs _ x (by omega)]
    simp only [List.length_cons]
    rw [show ofs + 1 + xs.length = ofs + (xs.length + 1) from by omega]
    simp [List.append_assoc]

/-- The copy loop lays the groups out contiguously from the offset. -/
theorem copyGroups_spec : ∀ (gs : List (List ℚ)) (dst : List ℚ) (ofs : Nat),
    ofs + (gs.map List.length).sum ≤ dst.length →
    copyGroups dst ofs gs
      = dst.take ofs ++ gs.join ++ dst.drop (ofs + (gs.map List.length).sum) := by
  intro gs
  induction gs with
  | nil =>
    intro dst ofs h
    simp [copyGroups, List.take_append_drop]
  | cons g gs ih =>
    intro dst ofs h
    simp only [List.map_cons, List.sum_cons] at h
    simp only [copyGroups]
    rw [ih (memcpyL dst ofs g) (ofs + g.length)
      (by rw [memcpyL_length]; omega)]
    rw [memcpyL_spec g dst ofs (by omega)]
    have hlen : (dst.take ofs ++ g).length = ofs + g.length := by
      simp only [List.length_append, List.length_take]
      omega
    have h2 : (dst.take ofs ++ g ++ dst.drop (ofs + g.length)).drop
          (ofs + g.length + (gs.map List.length).sum)
        = (dst.drop (ofs + g.length)).drop ((gs.map List.length).sum) := by
      rw [show ofs + g.length + (gs.map List.length).sum
            = (dst.take ofs ++ g).length + (gs.map List.length).sum
          from by rw [hlen]]
      rw [List.drop_append_eq_append_drop,
        List.drop_eq_nil_of_le (Nat.le_add_right _ _), List.nil_append,
        Nat.add_sub_cancel_left]
    rw [List.take_left' hlen, h2, List.drop_drop]
    have hidx : ofs + g.length + (gs.map List.length).sum
        = ofs + (g.length + (gs.map List.length).sum) := by omega
    rw [hidx]
    simp [List.append_assoc]

instance (sizes : List Nat) (c : List (List ℚ)) : Decidable (shaped sizes c) :=
  decidable_of_iff (c.map List.length = sizes) Iff.rfl

/-- The row produced by the interleaved copy-and-clear pass is the one
produced by the plain copy pass: the `memset`s do not touch the row. -/
theorem copyAndClear_fst : ∀ (gs : List (List ℚ)) (dst : List ℚ) (ofs : Nat),
    (copyAndClear dst ofs gs).1 = copyGroups dst ofs gs := by
  intro gs
  induction gs with
  | nil => intro dst ofs; rfl
  | cons g gs ih => intro dst ofs; simp only [copyAndClear, copyGroups, ih]

/-- After the copy-and-clear pass every group of `der_params` is zeroed. -/
theorem copyAndClear_snd : ∀ (gs : List (List ℚ)) (dst : List ℚ) (ofs : Nat),
    (copyAndClear dst ofs gs).2
      = gs.map (fun g => List.replicate g.length 0) := by
  intro gs
  induction gs with
  | nil => intro dst ofs; rfl
  | cons g gs ih => intro dst ofs; simp only [copyAndClear, List.map_cons, ih]

theorem zipWith_add_replicate_zero : ∀ (g : List ℚ),
    List.zipWith (· + ·) (List.replicate g.length 0) g = g := by
  intro g
  induction g with
  | nil => rfl
  | cons x xs ih => simp only [List.length_cons, List.replicate_succ,
      List.zipWith_cons_cons, zero_add, ih]

/-- Accumulating a shape-correct contribution into a zeroed `der_params`
yields exactly that contribution. -/
theorem accumulate_zeroDer (sizes : List Nat) (c : List (List ℚ))
    (h : shaped sizes c) : accumulate (zeroDer sizes) c = c := by
  have h' : sizes = c.map List.length := h.symm
  subst h'
  induction c with
  | nil => rfl
  | cons g gs ih =>
    simp only [accumulate, zeroDer, List.map_cons, List.zipWith_cons_cons,
      zipWith_add_replicate_zero]
    have := ih rfl
    simp only [accumulate, zeroDer] at this
    rw [this]

/-- Zeroing each group of a shape-correct buffer restores `zeroDer`. -/
theorem replicate_zero_shaped (sizes : List Nat) (c : List (List ℚ))
    (h : shaped sizes c) :
    c.map (fun g => List.replicate g.length (0 : ℚ)) = zeroDer sizes := by
  have h' : sizes = c.map List.length := h.symm
  subst h'
  rw [zeroDer, List.map_map]
  rfl

/-- Running the example loop from a zeroed `der_params` leaves it zeroed
after every iteration and appends one row per example, each row depending
only on the contribution of that example. -/
theorem runExamples_zeroDer (sizes : List Nat) (P : Nat) :
    ∀ (contribs : List (List (List ℚ))) (rs : List (List ℚ)),
      (∀ c ∈ contribs, shaped sizes c) →
      runExamples P { der := zeroDer sizes, rows := rs } contribs
        = { der := zeroDer sizes,
            rows := rs ++ contribs.map
              (fun c => copyGroups (List.replicate P 0) 0 c) } := by
  intro contribs
  induction contribs with
  | nil => intro rs _; simp [runExamples]
  | cons c cs ih =>
    intro rs h
    have hc : shaped sizes c := h c (List.mem_cons_self _ _)
    have hcs : ∀ x ∈ cs, shaped sizes x := fun x hx => h x (List.mem_cons_of_mem _ hx)
    simp only [runExamples, List.foldl_cons]
    have hstep : processExample P { der := zeroDer sizes, rows := rs } c
        = { der := zeroDer sizes,
            rows := rs ++ [copyGroups (List.replicate P 0) 0 c] } := by
      simp only [processExample, accumulate_zeroDer sizes c hc, copyAndClear_fst,
        copyAndClear_snd, replicate_zero_shaped sizes c hc]
    rw [hstep]
    have happ := ih (rs ++ [copyGroups (List.replicate P 0) 0 c]) hcs
    simp only [runExamples] at happ
    rw [happ]
    simp

/-- A shape-correct contribution fills its whole row: the copy loop writes the
concatenation of the groups, in group order, over all `nParams` columns. -/
theorem copyGroups_join (sizes : List Nat) (c : List (List ℚ))
    (h : shaped sizes c) :
    copyGroups (List.replicate (nParams sizes) 0) 0 c = c.join := by
  have hsum : (c.map List.length).sum = nParams sizes := by
    rw [h, nParams_eq_sum]
  rw [copyGroups_spec c _ 0 (by simp [hsum])]
  simp [hsum, List.drop_replicate]

/-! ### Claim theorems C5 and C6 -/

/-- Claim C5: the gradient matrix has exactly one row per example and
`nParams = Σ sizes` columns, and row `i` is the per-group gradient of example
`i`, the groups concatenated in the fixed group order of the model. -/
theorem gradient_matrix_shape (sizes : List Nat)
    (contribs : List (List (List ℚ))) (h : ∀ c ∈ contribs, shaped sizes c) :
    nParams sizes = sizes.sum ∧
      (collectGradients sizes contribs).rows.length = contribs.length ∧
      (∀ row ∈ (collectGradients sizes contribs).rows,
        row.length = nParams sizes) ∧
      (∀ k : Nat, ((collectGradients sizes contribs).rows)[k]?
        = (contribs[k]?).map List.join) := by
  have hrows : (collectGradients sizes contribs).rows
      = contribs.map (fun c => copyGroups (List.replicate (nParams sizes) 0) 0 c) := by
    rw [collectGradients, runExamples_zeroDer sizes _ contribs [] h]
    simp
  refine ⟨nParams_eq_sum sizes, ?_, ?_, ?_⟩
  · rw [hrows, List.length_map]
  · intro row hrow
    rw [hrows] at hrow
    obtain ⟨c, hc, rfl⟩ := List.mem_map.mp hrow
    rw [copyGroups_join sizes c (h c hc), List.length_join]
    rw [h c hc, nParams_eq_sum]
  · intro k
    rw [hrows, List.getElem?_map]
    cases hck : contribs[k]? with
    | none => rfl
    | some c =>
      have hmem : c ∈ contribs := by
        have := List.getElem?_mem hck
        exact this
      simp [copyGroups_join sizes c (h c hmem)]

/-- Witness for `gradient_matrix_shape` at one example with groups `[5]` and
`[6, 7]`. -/
theorem gradient_matrix_shape_witness :
    (∀ c ∈ [[[(5 : ℚ)], [6, 7]]], shaped [1, 2] c) ∧
      (nParams [1, 2] = [1, 2].sum ∧
        (collectGradients [1, 2] [[[(5 : ℚ)], [6, 7]]]).rows.length
          = [[[(5 : ℚ)], [6, 7]]].length ∧
        (∀ row ∈ (collectGradients [1, 2] [[[(5 : ℚ)], [6, 7]]]).rows,
          row.length = nParams [1, 2]) ∧
        (∀ k : Nat, ((collectGradients [1, 2] [[[(5 : ℚ)], [6, 7]]]).rows)[k]?
          = ([[[(5 : ℚ)], [6, 7]]][k]?).map List.join)) :=
  ⟨by decide, gradient_matrix_shape [1, 2] [[[(5 : ℚ)], [6, 7]]] (by decide)⟩

/-- Claim C6: the `der_params` buffers are all-zero at the start of every
forward/backward pass of every example (cleared once before the loop and re-zeroed
group by group right after each row copy), so row `i` of the gradient matrix
is determined by the contribution of example `i` alone. -/
theorem der_params_zeroed_each_example (sizes : List Nat)
    (contribs : List (List (List ℚ))) (h : ∀ c ∈ contribs, shaped sizes c) :
    (∀ k : Nat, k ≤ contribs.length →
      (runExamples (nParams sizes) { der := zeroDer sizes, rows := [] }
          (contribs.take k)).der = zeroDer sizes) ∧
      (collectGradients sizes contribs).rows
        = contribs.map
            (fun c => copyGroups (List.replicate (nParams sizes) 0) 0 c) := by
  constructor
  · intro k _
    have htake : ∀ c ∈ contribs.take k, shaped sizes c :=
      fun c hc => h c (List.take_subset k contribs hc)
    rw [runExamples_zeroDer sizes _ _ [] htake]
  · rw [collectGradients, runExamples_zeroDer sizes _ contribs [] h]
    simp

/-- Witness for `der_params_zeroed_each_example` at one example with groups
`[5]` and `[6, 7]`. -/
theorem der_params_zeroed_each_example_witness :
    (∀ c ∈ [[[(5 : ℚ)], [6, 7]]], shaped [1, 2] c) ∧
      ((∀ k : Nat, k ≤ [[[(5 : ℚ)], [6, 7]]].length →
        (runExamples (nParams [1, 2]) { der := zeroDer [1, 2], rows := [] }
            ([[[(5 : ℚ)], [6, 7]]].take k)).der = zeroDer [1, 2]) ∧
        (collectGradients [1, 2] [[[(5 : ℚ)], [6, 7]]]).rows
          = [[[(5 : ℚ)], [6, 7]]].map
              (fun c => copyGroups (List.replicate (nParams [1, 2]) 0) 0 c)) :=
  ⟨by decide,
    der_params_zeroed_each_example [1, 2] [[[(5 : ℚ)], [6, 7]]] (by decide)⟩

/-! ### Output phase (lines 204-252)

The writer runs after the sort.  `fmt` abstracts the decimal stream
rendering of a `real`; the embedding records the line structure of the two
text files and the control flow around `system("mkdir ...")` and the two
`ofstream::open` calls.  The fatal error messages appear here without the
apostrophe of the C literals. -/

/-- Line 209: the shell command built for `system`; an empty label yields
`mkdir hessian`. -/
def mkdirCommand (label : String) : String := "mkdir hessian" ++ label

/-- Line 214: path of the eigenvalue file. -/
def valsPath (label : String) : String :=
  "hessian" ++ label ++ "/eigenvals_full.txt"

/-- Line 235: path of the eigenvector file. -/
def vecsPath (label : String) : String :=
  "hessian" ++ label ++ "/eigenvecs_full.txt"

/-- Lines 218-219: one line per entry of the sorted eigenvalue vector, in
order. -/
def eigenvalsLines (n : Nat) (fmt : ℚ → String) (d : Fin n → ℚ)
    (V : Fin n → Fin n → ℚ) : List String :=
  List.ofFn (fun j => fmt ((eigSort n d V).1 j))

/-- Lines 239-243: `n_params` lines; line `j` prints `V->ptr[j][k]` for
`k = 0 .. n_params-1`, each value followed by one space (outer loop over
matrix rows, inner loop over matrix columns). -/
def eigenvecsLines (n : Nat) (fmt : ℚ → String) (d : Fin n → ℚ)
    (V : Fin n → Fin n → ℚ) : List String :=
  List.ofFn (fun j =>
    String.join (List.ofFn (fun k => fmt ((eigSort n d V).2 j k) ++ " ")))

/-- Lines 206-252 control flow: the `system` result `mkdirOk` (line 210) is
discarded; the eigenvalue file is opened, a failed open is fatal before any
write; otherwise its lines are written; then the eigenvector file is opened,
a failed open is fatal; otherwise its lines are written.  The result is the
list of files actually written, with the fatal message if any. -/
def outputPhase (label : String) (mkdirOk valsOpen vecsOpen : Bool)
    (valsLines vecsLines : List String) :
    List (String × List String) × Option String :=
  if valsOpen then
    if vecsOpen then
      ([(valsPath label, valsLines), (vecsPath label, vecsLines)], none)
    else ([(valsPath label, valsLines)], some "Cannot open eigenvecs file")
  else ([], some "Cannot open file for eigenvals")

/-! ### Claim theorems C7 and C8 -/

/-- Claim C7: the eigenvalue file has exactly `n_params` lines, line `i`
holding the `i`-th sorted (descending) eigenvalue; the eigenvector file has
exactly `n_params` lines, line `j` holding the `n_params` values
`V[j][0..n_params-1]` in order, each followed by one space — a row-major dump
of the column-eigenvector matrix. -/
theorem output_file_format (n : Nat) (fmt : ℚ → String) (d : Fin n → ℚ)
    (V : Fin n → Fin n → ℚ) :
    (eigenvalsLines n fmt d V).length = n ∧
      (∀ i : Fin n, (eigenvalsLines n fmt d V)[i.val]?
        = some (fmt ((eigSort n d V).1 i))) ∧
      (eigenvecsLines n fmt d V).length = n ∧
      (∀ j : Fin n, (eigenvecsLines n fmt d V)[j.val]?
        = some (String.join
            (List.ofFn (fun k => fmt ((eigSort n d V).2 j k) ++ " ")))) := by
  refine ⟨List.length_ofFn _, fun i => ?_, List.length_ofFn _, fun j => ?_⟩
  · rw [eigenvalsLines, List.getElem?_ofFn]
    simp [List.ofFnNthVal]
  · rw [eigenvecsLines, List.getElem?_ofFn]
    simp [List.ofFnNthVal]

/-- Claim C8: the result of the directory-creation command is never consulted
(the output phase behaves identically whatever `system` returned), while a
failed open of either output file is fatal with a descriptive message, and no
data is written through a file that failed to open. -/
theorem output_error_handling (label : String) (mkdirOk mkdirOk' : Bool)
    (valsOpen vecsOpen : Bool) (valsLines vecsLines : List String) :
    outputPhase label mkdirOk valsOpen vecsOpen valsLines vecsLines
        = outputPhase label mkdirOk' valsOpen vecsOpen valsLines vecsLines ∧
      outputPhase label mkdirOk false vecsOpen valsLines vecsLines
        = ([], some "Cannot open file for eigenvals") ∧
      outputPhase label mkdirOk true false valsLines vecsLines
        = ([(valsPath label, valsLines)], some "Cannot open eigenvecs file") ∧
      outputPhase label mkdirOk true true valsLines vecsLines
        = ([(valsPath label, valsLines), (vecsPath label, vecsLines)], none) :=
  ⟨rfl, rfl, rfl, rfl⟩

end HessianEstimator
